import Mathlib

/-!
Verification of the `minsketch` count-min-sketch library.

The Python sources are embedded shallowly:
* a mutable `d × w` counter table becomes a structure holding a total
  function `ℕ → ℕ → ℤ` together with the bookkeeping fields of the
  Python object (`depth`, `width`, `total`);
* methods become functions from the structure to an updated structure,
  returning the Python return value alongside;
* code that can raise returns an `Except`/`Option`, or pairs the
  post-state with an `Option String` when Python would leave a partially
  mutated object behind after raising.

Items are modelled as natural numbers (Python hashes every item to an
integer before use), counters and counts as integers (Python ints).
-/

/-- Embedding of `sketch_tables.SketchTable` (the base class, whose
methods are the implementation used by the list-, array- and
numpy-backed tables): a `depth × width` matrix of integer counters
modelled as a total function, plus the `total` accumulator. -/
structure SketchTable where
  depth : ℕ
  width : ℕ
  tbl : ℕ → ℕ → ℤ
  total : ℤ

/-- Embedding of `ListBackedSketchTable.__init__`: a fresh table of
zeros with `total = 0`. -/
def ListBackedSketchTable.init (depth width : ℕ) : SketchTable :=
  ⟨depth, width, fun _ _ => 0, 0⟩

/-- `SketchTable.get`: `return self.table[depth][index]`. -/
def SketchTable.get (t : SketchTable) (depth index : ℕ) : ℤ :=
  t.tbl depth index

/-- `SketchTable.set`: `self.table[depth][index] = value`. -/
def SketchTable.set (t : SketchTable) (depth index : ℕ) (value : ℤ) : SketchTable :=
  { t with tbl := fun r c => if r = depth ∧ c = index then value else t.tbl r c }

/-- `SketchTable.increment`: `self.total += value;
self.table[depth][index] += value; return self.table[depth][index]`.
The updated table is returned together with the new counter value. -/
def SketchTable.increment (t : SketchTable) (depth index : ℕ) (value : ℤ) :
    SketchTable × ℤ :=
  (⟨t.depth, t.width,
    fun r c => if r = depth ∧ c = index then t.tbl r c + value else t.tbl r c,
    t.total + value⟩,
   t.tbl depth index + value)

/-- `SketchTable.decrement_all`: the Python body is
`for item in self: if lower_bound < item <= upper_bound: item -= 1`.
The statement `item -= 1` rebinds the loop variable `item` to a new
integer; it never writes back into `self.table`, so the table object is
returned unchanged.  (`upper_bound` is `None` for the default `+∞`.) -/
def SketchTable.decrement_all (t : SketchTable) (upper_bound : Option ℤ)
    (lower_bound : ℤ) : SketchTable :=
  t

/-- Embedding of `sketch_tables.BitarrayBackedSketchTable`: the packed
bitarray rows are abstracted by the integer value each
`counter_size`-bit field currently holds (`get`/`set` round-trip
through `struct.pack`/`struct.unpack` with the same format, so the
field value is the whole observable state of a counter). -/
structure BitarrayBackedSketchTable where
  depth : ℕ
  width : ℕ
  counter_size : ℕ
  tbl : ℕ → ℕ → ℕ
  total : ℤ

/-- `BitarrayBackedSketchTable.__init__` with a legal `counter_size_bits`:
all counters zero, `total = 0`. -/
def BitarrayBackedSketchTable.init (depth width counter_size_bits : ℕ) :
    BitarrayBackedSketchTable :=
  ⟨depth, width, counter_size_bits, fun _ _ => 0, 0⟩

/-- `BitarrayBackedSketchTable.get`: unpack the counter's bits back to
a number. -/
def BitarrayBackedSketchTable.get (t : BitarrayBackedSketchTable)
    (depth index : ℕ) : ℕ :=
  t.tbl depth index

/-- `BitarrayBackedSketchTable.set`: `if value >= 2**self.counter_size:
raise ValueError(...)` and only then write the packed bits.  The check
precedes every mutation, so on the error path the object is untouched;
the pair returns the post-state together with the raised error, if any. -/
def BitarrayBackedSketchTable.set (t : BitarrayBackedSketchTable)
    (depth index value : ℕ) : BitarrayBackedSketchTable × Option String :=
  if 2 ^ t.counter_size ≤ value then
    (t, some "Counter would overflow after this operation")
  else
    ({ t with tbl := fun r c => if r = depth ∧ c = index then value else t.tbl r c },
     none)

/-- `BitarrayBackedSketchTable.increment`: `self.total += 1;
value += self.get(depth, index); self.set(depth, index, value);
return value`.  Note the source adds `1` to `total`, not `value`; and
the `total` mutation happens before `set` can raise. -/
def BitarrayBackedSketchTable.increment (t : BitarrayBackedSketchTable)
    (depth index value : ℕ) :
    BitarrayBackedSketchTable × Option String × ℕ :=
  let t1 : BitarrayBackedSketchTable := { t with total := t.total + 1 }
  let value' := value + t1.get depth index
  let res := t1.set depth index value'
  (res.1, res.2, value')

/-- C2: `decrement_all` on the base `SketchTable` (hence on the list-,
array- and numpy-backed tables) modifies no counter: on a table whose
single counter holds `5`, a default-bounds `decrement_all` leaves it at
`5`, where the claim demands `4`.  The Python loop body `item -= 1`
rebinds the loop variable instead of writing to the table. -/
theorem decrement_all_is_noop_on_base_table :
    ((((ListBackedSketchTable.init 1 1).set 0 0 5).decrement_all none 0).get 0 0 : ℤ)
      = 5 := by
  decide

/-- C5: `BitarrayBackedSketchTable.increment` adds `1` to `total`
regardless of the increment value, while the base `SketchTable.increment`
adds the full value: after incrementing a fresh one-cell table by `5`,
the bitarray-backed table's `total` is `1`, not the `5` the claim (and
the base-class contract) demands. -/
theorem bitarray_increment_total_adds_one :
    (((BitarrayBackedSketchTable.init 1 1 8).increment 0 0 5).1.total = 1
      ∧ ((ListBackedSketchTable.init 1 1).increment 0 0 5).1.total = 5)
    ∧ ((BitarrayBackedSketchTable.init 1 1 8).increment 0 0 5).2.2 = 5 := by
  refine ⟨⟨?_, ?_⟩, ?_⟩ <;> decide

/-- C7: on any bit-packed table with a supported counter width,
`set(row, col, v)` raises the overflow error exactly when
`v ≥ 2 ^ counter_size`, and when it raises it returns the table with
every counter (and every other field) unchanged. -/
theorem bitarray_set_overflow_iff (t : BitarrayBackedSketchTable)
    (d i v : ℕ)
    (hbits : t.counter_size = 8 ∨ t.counter_size = 16 ∨
      t.counter_size = 32 ∨ t.counter_size = 64) :
    ((t.set d i v).2.isSome ↔ 2 ^ t.counter_size ≤ v)
      ∧ ((t.set d i v).2.isSome → (t.set d i v).1 = t) := by
  unfold BitarrayBackedSketchTable.set
  by_cases h : 2 ^ t.counter_size ≤ v
  · simp [h]
  · simp [h]

/-- Witness for C7 at a concrete table: an 8-bit table rejects the
value `256` (and `255` is accepted, so the error state is genuinely
reachable on both sides of the boundary). -/
theorem bitarray_set_overflow_iff_witness :
    (((BitarrayBackedSketchTable.init 1 1 8).set 0 0 256).2.isSome ↔
        2 ^ (BitarrayBackedSketchTable.init 1 1 8).counter_size ≤ 256)
      ∧ (((BitarrayBackedSketchTable.init 1 1 8).set 0 0 256).2.isSome →
        ((BitarrayBackedSketchTable.init 1 1 8).set 0 0 256).1 =
          BitarrayBackedSketchTable.init 1 1 8) :=
  bitarray_set_overflow_iff (BitarrayBackedSketchTable.init 1 1 8) 0 0 256
    (Or.inl rfl)

/-- helper: a `some` result of `List.min?` over `ℤ` is a member and a
lower bound of the list. -/
theorem int_min?_spec {xs : List ℤ} {m : ℤ} (h : xs.min? = some m) :
    m ∈ xs ∧ ∀ b ∈ xs, m ≤ b := by
  haveI : Std.Antisymm (fun (a b : ℤ) => a ≤ b) :=
    ⟨fun h1 h2 => le_antisymm h1 h2⟩
  rw [List.min?_eq_some_iff (fun a => le_refl a) (fun a b => min_choice a b)
    (fun _ _ _ => le_min_iff)] at h
  exact h

/-- helper: `List.min?` of a non-empty integer list exists. -/
theorem int_min?_exists {xs : List ℤ} (h : xs ≠ []) : ∃ m, xs.min? = some m := by
  rcases hm : xs.min? with _ | m
  · rw [List.min?_eq_none_iff] at hm
    exact absurd hm h
  · exact ⟨m, rfl⟩

/-- The loop body of `NaiveUpdateStrategy.__call__`'s list
comprehension: increment row `i` at the item's hashed column and record
the returned value. -/
def naiveStep (hashes : ℕ → ℕ) (count : ℤ) (acc : SketchTable × List ℤ)
    (i : ℕ) : SketchTable × List ℤ :=
  let r := acc.1.increment i (hashes i) count
  (r.1, acc.2 ++ [r.2])

/-- Embedding of `NaiveUpdateStrategy.__call__`:
`return min([table.increment(i, hashes[i], count) for i in
range(table.depth)])`.  `none` models `min([])` raising `ValueError`
on a zero-depth table. -/
def NaiveUpdateStrategy.call (t : SketchTable) (hashes : ℕ → ℕ) (count : ℤ) :
    Option (SketchTable × ℤ) :=
  let res := (List.range t.depth).foldl (naiveStep hashes count) (t, [])
  match res.2.min? with
  | none => none
  | some m => some (res.1, m)

/-- The loop body of `ConservativeUpdateStrategy.__call__`'s list
comprehension: set row `i`'s hashed counter to the new minimum when the
pre-read value (`value` from `current_values`) is below it. -/
def consStep (t0 : SketchTable) (hashes : ℕ → ℕ) (m : ℤ) (acc : SketchTable)
    (i : ℕ) : SketchTable :=
  if t0.get i (hashes i) < m then acc.set i (hashes i) m else acc

/-- Embedding of `ConservativeUpdateStrategy.__call__`: reject negative
counts, read all current values, compute
`new_current_min = min(current_values) + count`, raise the rows whose
pre-read value is below it, and return `new_current_min`.  The second
error case models `min([])` raising `ValueError` on a zero-depth
table. -/
def ConservativeUpdateStrategy.call (t : SketchTable) (hashes : ℕ → ℕ)
    (count : ℤ) : Except String (SketchTable × ℤ) :=
  if count < 0 then
    .error "Conservative updating does not support negative counts"
  else
    let current_values := (List.range t.depth).map fun i => t.get i (hashes i)
    match current_values.min? with
    | none => .error "min() arg is an empty sequence"
    | some mn =>
      let new_current_min := mn + count
      .ok ((List.range t.depth).foldl (consStep t hashes new_current_min) t,
        new_current_min)

/-- Characterization of the naive-update loop over rows `0..n-1`: each
row's hashed counter gains `count`, nothing else changes, and the
collected return values are the new counter values in row order. -/
theorem naive_foldl_spec (hashes : ℕ → ℕ) (count : ℤ) (t : SketchTable)
    (l : List ℤ) (n : ℕ) :
    ((List.range n).foldl (naiveStep hashes count) (t, l)).1.depth = t.depth
    ∧ ((List.range n).foldl (naiveStep hashes count) (t, l)).1.width = t.width
    ∧ (∀ r c, ((List.range n).foldl (naiveStep hashes count) (t, l)).1.tbl r c
        = t.tbl r c + if r < n ∧ c = hashes r then count else 0)
    ∧ ((List.range n).foldl (naiveStep hashes count) (t, l)).2
        = l ++ (List.range n).map (fun i => t.tbl i (hashes i) + count) := by
  induction n with
  | zero => simp
  | succ n ih =>
    obtain ⟨hd, hw, htbl, hsnd⟩ := ih
    rw [List.range_succ, List.foldl_append, List.foldl_cons, List.foldl_nil]
    simp only [naiveStep, SketchTable.increment]
    refine ⟨hd, hw, ?_, ?_⟩
    · intro r c
      by_cases h1 : r = n ∧ c = hashes n
      · rw [if_pos h1, htbl]
        obtain ⟨h1r, h1c⟩ := h1
        have hne : ¬(r < n ∧ c = hashes r) := fun hh => by omega
        have hps : r < n + 1 ∧ c = hashes r := ⟨by omega, by rw [h1c, h1r]⟩
        rw [if_neg hne, if_pos hps]
        omega
      · rw [if_neg h1, htbl]
        by_cases h2 : r < n ∧ c = hashes r
        · have hps : r < n + 1 ∧ c = hashes r := ⟨by omega, h2.2⟩
          rw [if_pos h2, if_pos hps]
        · have hne : ¬(r < n + 1 ∧ c = hashes r) := by
            rintro ⟨hlt, hc⟩
            rcases Nat.lt_succ_iff_lt_or_eq.mp hlt with h | h
            · exact h2 ⟨h, hc⟩
            · exact h1 ⟨h, by rw [hc, h]⟩
          rw [if_neg h2, if_neg hne]
    · have hnn : ¬(n < n ∧ hashes n = hashes n) := fun hh => by omega
      rw [hsnd, htbl, if_neg hnn, add_zero, List.map_append, List.map_cons,
        List.map_nil, List.append_assoc]

/-- Characterization of the conservative-update loop over rows
`0..n-1`: the hashed counter of each row whose pre-read value is below
`m` becomes `m`, and every other cell of the start table `s` is kept. -/
theorem cons_foldl_spec (t0 : SketchTable) (hashes : ℕ → ℕ) (m : ℤ)
    (s : SketchTable) (n : ℕ) :
    ((List.range n).foldl (consStep t0 hashes m) s).depth = s.depth
    ∧ ((List.range n).foldl (consStep t0 hashes m) s).width = s.width
    ∧ (∀ r c, ((List.range n).foldl (consStep t0 hashes m) s).tbl r c
        = if r < n ∧ c = hashes r ∧ t0.get r (hashes r) < m then m
          else s.tbl r c) := by
  induction n with
  | zero => simp
  | succ n ih =>
    obtain ⟨hd, hw, htbl⟩ := ih
    rw [List.range_succ, List.foldl_append, List.foldl_cons, List.foldl_nil]
    simp only [consStep]
    by_cases hlt : t0.get n (hashes n) < m
    · rw [if_pos hlt]
      simp only [SketchTable.set]
      refine ⟨hd, hw, ?_⟩
      intro r c
      by_cases h1 : r = n ∧ c = hashes n
      · obtain ⟨h1r, h1c⟩ := h1
        have hps : r < n + 1 ∧ c = hashes r ∧ t0.get r (hashes r) < m :=
          ⟨by omega, by rw [h1c, h1r], by rw [h1r]; exact hlt⟩
        rw [if_pos ⟨h1r, h1c⟩, if_pos hps]
      · rw [if_neg h1, htbl]
        by_cases h2 : r < n ∧ c = hashes r ∧ t0.get r (hashes r) < m
        · rw [if_pos h2, if_pos ⟨by omega, h2.2⟩]
        · rw [if_neg h2, if_neg ?_]
          rintro ⟨hr, hc, hm⟩
          rcases Nat.lt_succ_iff_lt_or_eq.mp hr with h | h
          · exact h2 ⟨h, hc, hm⟩
          · exact h1 ⟨h, by rw [hc, h]⟩
    · rw [if_neg hlt]
      refine ⟨hd, hw, ?_⟩
      intro r c
      rw [htbl]
      by_cases h2 : r < n ∧ c = hashes r ∧ t0.get r (hashes r) < m
      · rw [if_pos h2, if_pos ⟨by omega, h2.2⟩]
      · rw [if_neg h2, if_neg ?_]
        rintro ⟨hr, hc, hm⟩
        rcases Nat.lt_succ_iff_lt_or_eq.mp hr with h | h
        · exact h2 ⟨h, hc, hm⟩
        · subst h
          exact hlt hm

/-- C3 (amended to tables with at least one row): conservative update
rejects negative deltas; for `δ ≥ 0` it returns
`m = min(current values) + δ`, raises exactly the hashed counters whose
current value is below `m` to `m`, and leaves every other cell of the
table unchanged. -/
theorem conservative_update_characterization (t : SketchTable)
    (hashes : ℕ → ℕ) (count : ℤ) (hd : 0 < t.depth) :
    (count < 0 → ∃ e, ConservativeUpdateStrategy.call t hashes count = .error e)
    ∧ (0 ≤ count → ∃ mn t',
        ((List.range t.depth).map fun i => t.get i (hashes i)).min? = some mn
        ∧ ConservativeUpdateStrategy.call t hashes count = .ok (t', mn + count)
        ∧ (∀ i, i < t.depth →
            t'.get i (hashes i) =
              if t.get i (hashes i) < mn + count then mn + count
              else t.get i (hashes i))
        ∧ (∀ r c, ¬(r < t.depth ∧ c = hashes r) → t'.tbl r c = t.tbl r c)) := by
  constructor
  · intro hneg
    refine ⟨"Conservative updating does not support negative counts", ?_⟩
    unfold ConservativeUpdateStrategy.call
    rw [if_pos hneg]
  · intro hnonneg
    have hne : ((List.range t.depth).map fun i => t.get i (hashes i)) ≠ [] := by
      simp only [ne_eq, List.map_eq_nil_iff, List.range_eq_nil]
      omega
    obtain ⟨mn, hmn⟩ := int_min?_exists hne
    refine ⟨mn, (List.range t.depth).foldl
      (consStep t hashes (mn + count)) t, hmn, ?_, ?_, ?_⟩
    · unfold ConservativeUpdateStrategy.call
      rw [if_neg (not_lt.mpr hnonneg)]
      simp only [hmn]
    · intro i hi
      obtain ⟨-, -, htbl⟩ := cons_foldl_spec t hashes (mn + count) t t.depth
      show _ = _
      rw [SketchTable.get, htbl]
      by_cases hlt : t.get i (hashes i) < mn + count
      · rw [if_pos ⟨hi, rfl, hlt⟩, if_pos hlt]
      · rw [if_neg (fun h => hlt h.2.2), if_neg hlt]
        rfl
    · intro r c hrc
      obtain ⟨-, -, htbl⟩ := cons_foldl_spec t hashes (mn + count) t t.depth
      rw [htbl, if_neg (fun h => hrc ⟨h.1, h.2.1⟩)]

/-- C3 counterexample to the claim as stated: on a zero-row table
(`ListBackedSketchTable(0, 4)` is constructible), conservative update
with the non-negative delta `0` still fails, because `min([])` raises
`ValueError` — so "fails iff δ < 0" is false for such table states. -/
theorem conservative_update_fails_on_zero_depth_table :
    ConservativeUpdateStrategy.call (ListBackedSketchTable.init 0 4)
      (fun _ => 0) 0 = .error "min() arg is an empty sequence" := rfl

/-- Witness for C3 on a two-row table of zeros with identity hashing
and delta `3`. -/
theorem conservative_update_characterization_witness :
    0 < (ListBackedSketchTable.init 2 4).depth
    ∧ (((3 : ℤ) < 0 → ∃ e, ConservativeUpdateStrategy.call
          (ListBackedSketchTable.init 2 4) (fun i => i) 3 = .error e)
      ∧ ((0 : ℤ) ≤ 3 → ∃ mn t',
          ((List.range (ListBackedSketchTable.init 2 4).depth).map fun i =>
            (ListBackedSketchTable.init 2 4).get i i).min? = some mn
          ∧ ConservativeUpdateStrategy.call (ListBackedSketchTable.init 2 4)
              (fun i => i) 3 = .ok (t', mn + 3)
          ∧ (∀ i, i < (ListBackedSketchTable.init 2 4).depth →
              t'.get i i =
                if (ListBackedSketchTable.init 2 4).get i i < mn + 3 then mn + 3
                else (ListBackedSketchTable.init 2 4).get i i)
          ∧ (∀ r c, ¬(r < (ListBackedSketchTable.init 2 4).depth ∧ c = r) →
              t'.tbl r c = (ListBackedSketchTable.init 2 4).tbl r c))) :=
  ⟨by decide, conservative_update_characterization
    (ListBackedSketchTable.init 2 4) (fun i => i) 3 (by decide)⟩

/-- helper: a map over a non-empty range is non-empty. -/
theorem rangeMap_ne_nil {α : Type} (f : ℕ → α) {n : ℕ} (hn : 0 < n) :
    (List.range n).map f ≠ [] := by
  simp only [ne_eq, List.map_eq_nil_iff, List.range_eq_nil]
  omega

/-- Embedding of `CountMinSketch.get`: hash the item and return
`min([self.table.get(i, hashes[i]) for i in range(self.table.depth)])`.
The hash strategy is an arbitrary function from item and row to a
column; `none` models `min([])` raising on a zero-depth table. -/
def CountMinSketch.getEstimate (hs : ℕ → ℕ → ℕ) (t : SketchTable)
    (item : ℕ) : Option ℤ :=
  ((List.range t.depth).map fun i => t.get i (hs item i)).min?

/-- Embedding of `CountMinSketch.insert` with the no-op lossy strategy
(`NoLossyUpdateStrategy.__call__` is `pass`) and the naive updater. -/
def CountMinSketch.insertNaive (hs : ℕ → ℕ → ℕ) (t : SketchTable)
    (item : ℕ) (count : ℤ) : Option (SketchTable × ℤ) :=
  NaiveUpdateStrategy.call t (hs item) count

/-- Embedding of `CountMinSketch.insert` with the no-op lossy strategy
and the conservative updater. -/
def CountMinSketch.insertConservative (hs : ℕ → ℕ → ℕ) (t : SketchTable)
    (item : ℕ) (count : ℤ) : Except String (SketchTable × ℤ) :=
  ConservativeUpdateStrategy.call t (hs item) count

/-- A sequence of `insert` calls on a naive-update sketch. -/
def runNaive (hs : ℕ → ℕ → ℕ) : SketchTable → List (ℕ × ℤ) → Option SketchTable
  | t, [] => some t
  | t, p :: rest =>
    match CountMinSketch.insertNaive hs t p.1 p.2 with
    | none => none
    | some r => runNaive hs r.1 rest

/-- A sequence of `insert` calls on a conservative-update sketch. -/
def runConservative (hs : ℕ → ℕ → ℕ) :
    SketchTable → List (ℕ × ℤ) → Except String SketchTable
  | t, [] => .ok t
  | t, p :: rest =>
    match CountMinSketch.insertConservative hs t p.1 p.2 with
    | .error e => .error e
    | .ok r => runConservative hs r.1 rest

/-- The true count of an item in an insert sequence: the sum of the
counts inserted for it. -/
def trueCount (item : ℕ) : List (ℕ × ℤ) → ℤ
  | [] => 0
  | p :: rest => (if p.1 = item then p.2 else 0) + trueCount item rest

/-- helper: one naive insert succeeds on a positive-depth table and
adds `count` to each of the item's hashed cells. -/
theorem insertNaive_spec (hs : ℕ → ℕ → ℕ) (t : SketchTable) (y : ℕ) (c : ℤ)
    (hd : 0 < t.depth) :
    ∃ t' m, CountMinSketch.insertNaive hs t y c = some (t', m)
      ∧ t'.depth = t.depth ∧ t'.width = t.width
      ∧ (∀ r cc, t'.tbl r cc
          = t.tbl r cc + if r < t.depth ∧ cc = hs y r then c else 0) := by
  obtain ⟨hdp, hwd, htbl, hsnd⟩ := naive_foldl_spec (hs y) c t [] t.depth
  obtain ⟨m, hm⟩ := int_min?_exists
    (rangeMap_ne_nil (fun i => t.tbl i (hs y i) + c) hd)
  refine ⟨((List.range t.depth).foldl (naiveStep (hs y) c) (t, [])).1, m,
    ?_, hdp, hwd, htbl⟩
  unfold CountMinSketch.insertNaive NaiveUpdateStrategy.call
  simp only [hsnd, List.nil_append, hm]

/-- helper: one conservative insert with a non-negative count succeeds
on a positive-depth table and raises exactly the item's low hashed
cells to `min + count`. -/
theorem insertCons_spec (hs : ℕ → ℕ → ℕ) (t : SketchTable) (y : ℕ) (c : ℤ)
    (hd : 0 < t.depth) (hc : 0 ≤ c) :
    ∃ t' mn, CountMinSketch.insertConservative hs t y c = .ok (t', mn + c)
      ∧ ((List.range t.depth).map fun i => t.get i (hs y i)).min? = some mn
      ∧ t'.depth = t.depth ∧ t'.width = t.width
      ∧ (∀ r cc, t'.tbl r cc
          = if r < t.depth ∧ cc = hs y r ∧ t.get r (hs y r) < mn + c
            then mn + c else t.tbl r cc) := by
  obtain ⟨mn, hmn⟩ := int_min?_exists
    (rangeMap_ne_nil (fun i => t.get i (hs y i)) hd)
  obtain ⟨hdp, hwd, htbl⟩ := cons_foldl_spec t (hs y) (mn + c) t t.depth
  refine ⟨_, mn, ?_, hmn, hdp, hwd, htbl⟩
  unfold CountMinSketch.insertConservative ConservativeUpdateStrategy.call
  rw [if_neg (not_lt.mpr hc)]
  simp only [hmn]

/-- helper: a run of naive inserts with non-negative counts succeeds on
a positive-depth table, and every per-item lower bound `B` on the
item's hashed cells grows by the item's true count in the sequence. -/
theorem runNaive_spec (hs : ℕ → ℕ → ℕ) (ops : List (ℕ × ℤ)) :
    ∀ (t : SketchTable) (B : ℕ → ℤ), 0 < t.depth → (∀ p ∈ ops, 0 ≤ p.2) →
    (∀ x i, i < t.depth → B x ≤ t.tbl i (hs x i)) →
    ∃ t', runNaive hs t ops = some t' ∧ t'.depth = t.depth ∧ t'.width = t.width
      ∧ (∀ x i, i < t.depth → B x + trueCount x ops ≤ t'.tbl i (hs x i)) := by
  induction ops with
  | nil =>
    intro t B hd _ hB
    refine ⟨t, rfl, rfl, rfl, fun x i hi => ?_⟩
    simpa [trueCount] using hB x i hi
  | cons p rest ih =>
    intro t B hd hpos hB
    obtain ⟨t1, m, heq, hdep, hwid, htbl⟩ := insertNaive_spec hs t p.1 p.2 hd
    have hd1 : 0 < t1.depth := by rw [hdep]; exact hd
    have hB1 : ∀ x i, i < t1.depth →
        (B x + if p.1 = x then p.2 else 0) ≤ t1.tbl i (hs x i) := by
      intro x i hi
      rw [hdep] at hi
      rw [htbl]
      by_cases hx : p.1 = x
      · subst hx
        rw [if_pos rfl, if_pos ⟨hi, rfl⟩]
        exact add_le_add_right (hB p.1 i hi) p.2
      · rw [if_neg hx]
        have h0 : (0 : ℤ) ≤ if i < t.depth ∧ hs x i = hs p.1 i then p.2 else 0 := by
          split
          · exact hpos p (List.mem_cons_self p rest)
          · exact le_refl 0
        rw [add_zero]
        exact le_trans (hB x i hi) (le_add_of_nonneg_right h0)
    obtain ⟨t', hrun, hdep', hwid', hbound⟩ :=
      ih t1 (fun x => B x + if p.1 = x then p.2 else 0) hd1
        (fun q hq => hpos q (List.mem_cons_of_mem p hq)) hB1
    refine ⟨t', ?_, by rw [hdep', hdep], by rw [hwid', hwid], ?_⟩
    · show runNaive hs t (p :: rest) = some t'
      unfold runNaive
      rw [heq]
      exact hrun
    · intro x i hi
      have hb := hbound x i (by rw [hdep]; exact hi)
      calc B x + trueCount x (p :: rest)
          = (B x + if p.1 = x then p.2 else 0) + trueCount x rest := by
            rw [trueCount]; ring
        _ ≤ t'.tbl i (hs x i) := hb

/-- helper: a run of conservative inserts with non-negative counts
succeeds on a positive-depth table, and every per-item lower bound `B`
on the item's hashed cells grows by the item's true count. -/
theorem runCons_spec (hs : ℕ → ℕ → ℕ) (ops : List (ℕ × ℤ)) :
    ∀ (t : SketchTable) (B : ℕ → ℤ), 0 < t.depth → (∀ p ∈ ops, 0 ≤ p.2) →
    (∀ x i, i < t.depth → B x ≤ t.tbl i (hs x i)) →
    ∃ t', runConservative hs t ops = .ok t' ∧ t'.depth = t.depth
      ∧ t'.width = t.width
      ∧ (∀ x i, i < t.depth → B x + trueCount x ops ≤ t'.tbl i (hs x i)) := by
  induction ops with
  | nil =>
    intro t B hd _ hB
    refine ⟨t, rfl, rfl, rfl, fun x i hi => ?_⟩
    simpa [trueCount] using hB x i hi
  | cons p rest ih =>
    intro t B hd hpos hB
    have hc : (0 : ℤ) ≤ p.2 := hpos p (List.mem_cons_self p rest)
    obtain ⟨t1, mn, heq, hmn, hdep, hwid, htbl⟩ :=
      insertCons_spec hs t p.1 p.2 hd hc
    have hd1 : 0 < t1.depth := by rw [hdep]; exact hd
    have hmnB : B p.1 ≤ mn := by
      obtain ⟨hmem, -⟩ := int_min?_spec hmn
      obtain ⟨j, hj, hval⟩ := List.mem_map.mp hmem
      rw [← hval]
      exact hB p.1 j (List.mem_range.mp hj)
    have hB1 : ∀ x i, i < t1.depth →
        (B x + if p.1 = x then p.2 else 0) ≤ t1.tbl i (hs x i) := by
      intro x i hi
      rw [hdep] at hi
      rw [htbl]
      by_cases hx : p.1 = x
      · subst hx
        rw [if_pos rfl]
        by_cases hcond : i < t.depth ∧ hs p.1 i = hs p.1 i
            ∧ t.get i (hs p.1 i) < mn + p.2
        · rw [if_pos hcond]
          exact add_le_add_right hmnB p.2
        · have hcond' : ¬ t.get i (hs p.1 i) < mn + p.2 :=
            fun hh => hcond ⟨hi, rfl, hh⟩
          rw [if_neg hcond]
          exact le_trans (add_le_add_right hmnB p.2) (not_lt.mp hcond')
      · rw [if_neg hx, add_zero]
        by_cases hcond : i < t.depth ∧ hs x i = hs p.1 i
            ∧ t.get i (hs p.1 i) < mn + p.2
        · rw [if_pos hcond]
          have : t.tbl i (hs x i) ≤ mn + p.2 := by
            have h1 := hcond.2.2
            rw [← hcond.2.1] at h1
            exact le_of_lt h1
          exact le_trans (hB x i hi) this
        · rw [if_neg hcond]
          exact hB x i hi
    obtain ⟨t', hrun, hdep', hwid', hbound⟩ :=
      ih t1 (fun x => B x + if p.1 = x then p.2 else 0) hd1
        (fun q hq => hpos q (List.mem_cons_of_mem p hq)) hB1
    refine ⟨t', ?_, by rw [hdep', hdep], by rw [hwid', hwid], ?_⟩
    · show runConservative hs t (p :: rest) = .ok t'
      unfold runConservative
      rw [heq]
      exact hrun
    · intro x i hi
      have hb := hbound x i (by rw [hdep]; exact hi)
      calc B x + trueCount x (p :: rest)
          = (B x + if p.1 = x then p.2 else 0) + trueCount x rest := by
            rw [trueCount]; ring
        _ ≤ t'.tbl i (hs x i) := hb

/-- helper: the point estimate exists on a positive-depth table and is
at least any common lower bound of the item's hashed cells. -/
theorem getEstimate_bound (hs : ℕ → ℕ → ℕ) (t : SketchTable) (x : ℕ)
    (B : ℤ) (hd : 0 < t.depth)
    (hB : ∀ i, i < t.depth → B ≤ t.tbl i (hs x i)) :
    ∃ e, CountMinSketch.getEstimate hs t x = some e ∧ B ≤ e := by
  obtain ⟨e, he⟩ := int_min?_exists
    (rangeMap_ne_nil (fun i => t.get i (hs x i)) hd)
  obtain ⟨hmem, -⟩ := int_min?_spec he
  refine ⟨e, he, ?_⟩
  obtain ⟨i, hi, hval⟩ := List.mem_map.mp hmem
  rw [← hval]
  exact hB i (List.mem_range.mp hi)

/-- C1: one-sided error.  For any hash strategy (with in-range
columns), any positive-depth sketch with the no-op lossy strategy, and
any sequence of positive-count inserts, the run succeeds under both the
naive and the conservative update strategy, and the resulting estimate
`get(item)` is at least the item's true count. -/
theorem cms_one_sided_error (d w : ℕ) (hs : ℕ → ℕ → ℕ)
    (ops : List (ℕ × ℤ)) (x : ℕ) (hd : 0 < d)
    (hbound : ∀ y i, i < d → hs y i < w)
    (hpos : ∀ p ∈ ops, 0 < p.2) :
    (∃ t, runNaive hs (ListBackedSketchTable.init d w) ops = some t
      ∧ ∃ e, CountMinSketch.getEstimate hs t x = some e
        ∧ trueCount x ops ≤ e)
    ∧ (∃ t, runConservative hs (ListBackedSketchTable.init d w) ops = .ok t
      ∧ ∃ e, CountMinSketch.getEstimate hs t x = some e
        ∧ trueCount x ops ≤ e) := by
  have hnn : ∀ p ∈ ops, (0 : ℤ) ≤ p.2 := fun p hp => le_of_lt (hpos p hp)
  have hB0 : ∀ (y : ℕ) i, i < (ListBackedSketchTable.init d w).depth →
      (fun _ : ℕ => (0 : ℤ)) y ≤ (ListBackedSketchTable.init d w).tbl i (hs y i) :=
    fun _ _ _ => le_refl 0
  constructor
  · obtain ⟨t, hrun, hdep, -, hbnd⟩ :=
      runNaive_spec hs ops (ListBackedSketchTable.init d w)
        (fun _ => 0) hd hnn hB0
    refine ⟨t, hrun, ?_⟩
    obtain ⟨e, he, hbe⟩ := getEstimate_bound hs t x (trueCount x ops)
      (by rw [hdep]; exact hd)
      (fun i hi => by simpa using hbnd x i (by rwa [← hdep]))
    exact ⟨e, he, hbe⟩
  · obtain ⟨t, hrun, hdep, -, hbnd⟩ :=
      runCons_spec hs ops (ListBackedSketchTable.init d w)
        (fun _ => 0) hd hnn hB0
    refine ⟨t, hrun, ?_⟩
    obtain ⟨e, he, hbe⟩ := getEstimate_bound hs t x (trueCount x ops)
      (by rw [hdep]; exact hd)
      (fun i hi => by simpa using hbnd x i (by rwa [← hdep]))
    exact ⟨e, he, hbe⟩

/-- Witness for C1: a `2 × 4` sketch, hash function `(y + i) % 4`, and
the insert sequence `[(0,1), (1,2), (0,3)]`, queried at item `0`. -/
theorem cms_one_sided_error_witness :
    (∃ t, runNaive (fun y i => (y + i) % 4)
        (ListBackedSketchTable.init 2 4) [(0, 1), (1, 2), (0, 3)] = some t
      ∧ ∃ e, CountMinSketch.getEstimate (fun y i => (y + i) % 4) t 0 = some e
        ∧ trueCount 0 [(0, 1), (1, 2), (0, 3)] ≤ e)
    ∧ (∃ t, runConservative (fun y i => (y + i) % 4)
        (ListBackedSketchTable.init 2 4) [(0, 1), (1, 2), (0, 3)] = .ok t
      ∧ ∃ e, CountMinSketch.getEstimate (fun y i => (y + i) % 4) t 0 = some e
        ∧ trueCount 0 [(0, 1), (1, 2), (0, 3)] ≤ e) :=
  cms_one_sided_error 2 4 (fun y i => (y + i) % 4) [(0, 1), (1, 2), (0, 3)] 0
    (by decide) (fun y i _ => Nat.mod_lt _ (by decide)) (by decide)

/-- helper: a paired run of the same non-negative insert sequence
through a conservative and a naive sketch of the same depth keeps the
conservative table cell-wise at most the naive table. -/
theorem runPair_spec (hs : ℕ → ℕ → ℕ) (ops : List (ℕ × ℤ)) :
    ∀ (tc tn : SketchTable), tc.depth = tn.depth → 0 < tc.depth →
    (∀ p ∈ ops, 0 ≤ p.2) → (∀ r c, tc.tbl r c ≤ tn.tbl r c) →
    ∃ tc' tn', runConservative hs tc ops = .ok tc'
      ∧ runNaive hs tn ops = some tn'
      ∧ tc'.depth = tc.depth ∧ tn'.depth = tn.depth
      ∧ (∀ r c, tc'.tbl r c ≤ tn'.tbl r c) := by
  induction ops with
  | nil =>
    intro tc tn hdep hd _ hcell
    exact ⟨tc, tn, rfl, rfl, rfl, rfl, hcell⟩
  | cons p rest ih =>
    intro tc tn hdep hd hnn hcell
    have hc : (0 : ℤ) ≤ p.2 := hnn p (List.mem_cons_self p rest)
    obtain ⟨tc1, mn, heqc, hmn, hdepc, -, htblc⟩ :=
      insertCons_spec hs tc p.1 p.2 hd hc
    obtain ⟨tn1, m, heqn, hdepn, -, htbln⟩ :=
      insertNaive_spec hs tn p.1 p.2 (by rw [← hdep]; exact hd)
    have hcell1 : ∀ r c, tc1.tbl r c ≤ tn1.tbl r c := by
      intro r c
      rw [htblc, htbln]
      by_cases hcond : r < tc.depth ∧ c = hs p.1 r
          ∧ tc.get r (hs p.1 r) < mn + p.2
      · rw [if_pos hcond, if_pos ⟨by rw [← hdep]; exact hcond.1, hcond.2.1⟩]
        have hmem : tc.get r (hs p.1 r)
            ∈ (List.range tc.depth).map fun i => tc.get i (hs p.1 i) :=
          List.mem_map.mpr ⟨r, List.mem_range.mpr hcond.1, rfl⟩
        obtain ⟨-, hlb⟩ := int_min?_spec hmn
        have h1 : mn ≤ tc.get r (hs p.1 r) := hlb _ hmem
        have h2 : tc.get r (hs p.1 r) ≤ tn.tbl r (hs p.1 r) := hcell r _
        calc mn + p.2 ≤ tn.tbl r (hs p.1 r) + p.2 := by
              exact add_le_add_right (le_trans h1 h2) p.2
          _ = tn.tbl r c + p.2 := by rw [hcond.2.1]
      · rw [if_neg hcond]
        have h0 : (0 : ℤ) ≤ if r < tn.depth ∧ c = hs p.1 r then p.2 else 0 := by
          split
          · exact hc
          · exact le_refl 0
        exact le_trans (hcell r c) (le_add_of_nonneg_right h0)
    obtain ⟨tc', tn', hrc, hrn, hdc, hdn, hcell'⟩ :=
      ih tc1 tn1 (by rw [hdepc, hdepn, hdep]) (by rw [hdepc]; exact hd)
        (fun q hq => hnn q (List.mem_cons_of_mem p hq)) hcell1
    refine ⟨tc', tn', ?_, ?_, by rw [hdc, hdepc], by rw [hdn, hdepn], hcell'⟩
    · show runConservative hs tc (p :: rest) = .ok tc'
      unfold runConservative
      rw [heqc]
      exact hrc
    · show runNaive hs tn (p :: rest) = some tn'
      unfold runNaive
      rw [heqn]
      exact hrn

/-- helper: point estimates of cell-wise comparable equal-depth tables
compare accordingly. -/
theorem getEstimate_le (hs : ℕ → ℕ → ℕ) (tc tn : SketchTable) (x : ℕ)
    (hdep : tc.depth = tn.depth) (hd : 0 < tc.depth)
    (hcell : ∀ r c, tc.tbl r c ≤ tn.tbl r c) :
    ∃ ec en, CountMinSketch.getEstimate hs tc x = some ec
      ∧ CountMinSketch.getEstimate hs tn x = some en ∧ ec ≤ en := by
  obtain ⟨ec, hec⟩ := int_min?_exists
    (rangeMap_ne_nil (fun i => tc.get i (hs x i)) hd)
  have hdn : 0 < tn.depth := hdep ▸ hd
  obtain ⟨en, hen⟩ := int_min?_exists
    (rangeMap_ne_nil (fun i => tn.get i (hs x i)) hdn)
  refine ⟨ec, en, hec, hen, ?_⟩
  obtain ⟨henm, -⟩ := int_min?_spec hen
  obtain ⟨-, hlb⟩ := int_min?_spec hec
  obtain ⟨j, hj, hval⟩ := List.mem_map.mp henm
  have hjd : j < tn.depth := List.mem_range.mp hj
  have hmem : tc.get j (hs x j)
      ∈ (List.range tc.depth).map fun i => tc.get i (hs x i) :=
    List.mem_map.mpr ⟨j, List.mem_range.mpr (by rw [hdep]; exact hjd), rfl⟩
  calc ec ≤ tc.get j (hs x j) := hlb _ hmem
    _ ≤ tn.get j (hs x j) := hcell j _
    _ = en := hval

/-- C4: conservative never over-estimates relative to naive.  For the
same positive-depth dimensions, the same hash strategy (with in-range
columns), no lossy strategy, and the same sequence of non-negative
inserts, both runs succeed and the conservative sketch's estimate is at
most the naive sketch's estimate for every item. -/
theorem conservative_le_naive (d w : ℕ) (hs : ℕ → ℕ → ℕ)
    (ops : List (ℕ × ℤ)) (x : ℕ) (hd : 0 < d)
    (hbound : ∀ y i, i < d → hs y i < w)
    (hnn : ∀ p ∈ ops, 0 ≤ p.2) :
    ∃ tc tn, runConservative hs (ListBackedSketchTable.init d w) ops = .ok tc
      ∧ runNaive hs (ListBackedSketchTable.init d w) ops = some tn
      ∧ ∃ ec en, CountMinSketch.getEstimate hs tc x = some ec
        ∧ CountMinSketch.getEstimate hs tn x = some en ∧ ec ≤ en := by
  obtain ⟨tc, tn, hrc, hrn, hdc, hdn, hcell⟩ :=
    runPair_spec hs ops (ListBackedSketchTable.init d w)
      (ListBackedSketchTable.init d w) rfl hd hnn (fun _ _ => le_refl 0)
  refine ⟨tc, tn, hrc, hrn, ?_⟩
  exact getEstimate_le hs tc tn x (by rw [hdc, hdn]) (by rw [hdc]; exact hd)
    hcell

/-- Witness for C4: a `2 × 4` pair of sketches, hash function
`(y + i) % 4`, insert sequence `[(0,2), (3,0), (1,4)]`, queried at
item `3`. -/
theorem conservative_le_naive_witness :
    ∃ tc tn, runConservative (fun y i => (y + i) % 4)
        (ListBackedSketchTable.init 2 4) [(0, 2), (3, 0), (1, 4)] = .ok tc
      ∧ runNaive (fun y i => (y + i) % 4)
          (ListBackedSketchTable.init 2 4) [(0, 2), (3, 0), (1, 4)] = some tn
      ∧ ∃ ec en, CountMinSketch.getEstimate (fun y i => (y + i) % 4) tc 3
          = some ec
        ∧ CountMinSketch.getEstimate (fun y i => (y + i) % 4) tn 3 = some en
        ∧ ec ≤ en :=
  conservative_le_naive 2 4 (fun y i => (y + i) % 4) [(0, 2), (3, 0), (1, 4)]
    3 (by decide) (fun y i _ => Nat.mod_lt _ (by decide)) (by decide)

/-- Python list comparison on `[count, item]` heap pairs, as used by
`heapq`: lexicographic, count first. -/
def hpLe (a b : ℤ × ℕ) : Prop := a.1 < b.1 ∨ (a.1 = b.1 ∧ a.2 ≤ b.2)

/-- Strict Python list comparison on `[count, item]` heap pairs. -/
def hpLt (a b : ℤ × ℕ) : Prop := a.1 < b.1 ∨ (a.1 = b.1 ∧ a.2 < b.2)

instance hpLe.decRel : DecidableRel hpLe := fun a b => by
  unfold hpLe
  exact inferInstance

instance hpLt.decRel : DecidableRel hpLt := fun a b => by
  unfold hpLt
  exact inferInstance

instance hpLe.total : IsTotal (ℤ × ℕ) hpLe := by
  constructor
  intro a b
  unfold hpLe
  omega

instance hpLe.trans : IsTrans (ℤ × ℕ) hpLe := by
  constructor
  intro a b c hab hbc
  unfold hpLe at hab hbc ⊢
  omega

/-- Embedding of `heap.MinHeap`.  A `heapq` heap is a Python list whose
root `heap[0]` is its minimum; only the multiset of entries and the
root are ever observed (through `peek`, `pop`, `push_pop`, `len`),
so the list is abstracted by the sorted list of its entries.  The
`Option` is the Python attribute: `None` or an actual list. -/
structure MinHeap where
  heap : Option (List (ℤ × ℕ))

/-- `MinHeap.__init__`: with `data`, the source stores
`self.heap = heapq.heapify(data)`, and `heapq.heapify` mutates its
argument in place and returns `None` — so the attribute becomes `None`.
Without `data`, `self.heap = []`. -/
def MinHeap.init (data : Option (List (ℤ × ℕ))) : MinHeap :=
  match data with
  | some _ => ⟨none⟩
  | none => ⟨some []⟩

/-- `heapq.heappush` at the sorted-list abstraction: ordered insert. -/
def heapPush (l : List (ℤ × ℕ)) (p : ℤ × ℕ) : List (ℤ × ℕ) :=
  List.orderedInsert hpLe p l

/-- `heapq.heappushpop` at the sorted-list abstraction: when the heap
is non-empty and its root is strictly below the pushed pair, replace
the root with the pair and return the root; otherwise return the pair
and leave the heap unchanged. -/
def heapPushPop (l : List (ℤ × ℕ)) (p : ℤ × ℕ) : List (ℤ × ℕ) × (ℤ × ℕ) :=
  match l with
  | [] => ([], p)
  | h :: t => if hpLt h p then (List.orderedInsert hpLe p t, h) else (h :: t, p)

/-- `MinHeap.push`: `heapq.heappush(self.heap, item)` — raises
`TypeError` when the attribute is `None`. -/
def MinHeap.push (m : MinHeap) (p : ℤ × ℕ) : Except String MinHeap :=
  match m.heap with
  | none => .error "TypeError: heap argument must be a list"
  | some l => .ok ⟨some (heapPush l p)⟩

/-- `MinHeap.pop`: `heapq.heappop(self.heap)` — raises `TypeError` on
`None` and `IndexError` on an empty heap; otherwise removes and
returns the root. -/
def MinHeap.pop (m : MinHeap) : Except String (MinHeap × (ℤ × ℕ)) :=
  match m.heap with
  | none => .error "TypeError: heap argument must be a list"
  | some [] => .error "IndexError: index out of range"
  | some (h :: t) => .ok (⟨some t⟩, h)

/-- `MinHeap.peek`: `return self.heap[0]` — raises `TypeError` on
`None` and `IndexError` on an empty heap. -/
def MinHeap.peek (m : MinHeap) : Except String (ℤ × ℕ) :=
  match m.heap with
  | none => .error "TypeError: NoneType object is not subscriptable"
  | some [] => .error "IndexError: list index out of range"
  | some (h :: _) => .ok h

/-- `MinHeap.__len__`: `return len(self.heap)` — raises `TypeError` on
`None`. -/
def MinHeap.len (m : MinHeap) : Except String ℕ :=
  match m.heap with
  | none => .error "TypeError: object of type NoneType has no len()"
  | some l => .ok l.length

/-- `MinHeap.n_largest`: the source body is
`return heapq.nsmallest(n, self.heap)` — the `n` SMALLEST entries in
ascending order, despite the method's name. -/
def MinHeap.n_largest (m : MinHeap) (k : ℕ) : Except String (List (ℤ × ℕ)) :=
  match m.heap with
  | none => .error "TypeError: NoneType object is not iterable"
  | some l => .ok ((List.insertionSort hpLe l).take k)

/-- The one `MinHeap` construction the sketches perform:
`count_min_sketch.TopNCountMinSketch._init_top_n` runs
`self.heap = heap.MinHeap()` — the zero-argument form. -/
def TopNCountMinSketch.initHeap : MinHeap :=
  MinHeap.init none

/-- C9: `n_largest` returns the `k` SMALLEST stored pairs, not the `k`
largest the claim describes: on a heap holding `[(1,0), (2,1)]`,
`n_largest(1)` returns the minimum `[(1, 0)]`, which differs from the
maximum `[(2, 1)]`. -/
theorem n_largest_returns_smallest :
    MinHeap.n_largest ⟨some [(2, 1), (1, 0)]⟩ 1 = .ok [((1 : ℤ), (0 : ℕ))]
      ∧ [((1 : ℤ), (0 : ℕ))] ≠ [((2 : ℤ), (1 : ℕ))] := by
  constructor
  · rfl
  · decide

/-- C10: constructing `MinHeap` with initial data stores `None` in the
`heap` attribute, after which `push`, `pop`, `peek` and `len` all
raise; only the zero-argument construction yields a usable empty heap,
and that is the construction `_init_top_n` performs. -/
theorem minheap_init_with_data_is_unusable :
    (∀ l : List (ℤ × ℕ),
      (MinHeap.init (some l)).heap = none
      ∧ (∀ p, ∃ e, (MinHeap.init (some l)).push p = .error e)
      ∧ (∃ e, (MinHeap.init (some l)).pop = .error e)
      ∧ (∃ e, (MinHeap.init (some l)).peek = .error e)
      ∧ (∃ e, (MinHeap.init (some l)).len = .error e))
    ∧ (MinHeap.init none).heap = some []
    ∧ TopNCountMinSketch.initHeap = MinHeap.init none := by
  refine ⟨fun l => ⟨rfl, fun p => ⟨_, rfl⟩, ⟨_, rfl⟩, ⟨_, rfl⟩, ⟨_, rfl⟩⟩,
    rfl, rfl⟩

/-- State of the top-N registry of `TopNCountMinSketch`: the bound `n`,
the heap content (sorted-list abstraction of the always-usable
zero-argument `MinHeap`, as established for `_init_top_n`), the
`heap_full` flag, and the `top_n` dict as an association list
`item ↦ count` in insertion order. -/
structure TopNState where
  n : ℕ
  heap : List (ℤ × ℕ)
  heap_full : Bool
  top_n : List (ℕ × ℤ)

/-- `TopNCountMinSketch._init_top_n`: empty heap, flag down, empty
dict. -/
def TopNCountMinSketch.init_top_n (n : ℕ) : TopNState :=
  ⟨n, [], false, []⟩

/-- Dict lookup `self.top_n[item]`, returning the stored count. -/
def TopNState.lookup (m : List (ℕ × ℤ)) (x : ℕ) : Option ℤ :=
  (m.find? fun e => e.1 == x).map fun e => e.2

/-- Embedding of `TopNCountMinSketch._update_top_n`.

* Python condition: `if not self.heap_full or new_min_count >
  self.heap.peek()[0]` (short-circuit: `peek` runs only when the flag
  is up, hence on a non-empty heap whose root is the head here).
* Tracked item: the dict's `[count, item]` pair — shared with the heap
  — has its count overwritten and the heap is re-heapified; on the
  sorted-list abstraction the item's heap entry is replaced and
  re-inserted in order, and the dict value is overwritten.
* New item, full heap: the new pair enters the dict, `push_pop`
  replaces the root, and the returned old pair's item is deleted from
  the dict.
* New item, non-full heap: push; the flag rises when the heap reaches
  `n` elements. -/
def TopNState.update (s : TopNState) (item : ℕ) (new_min_count : ℤ) :
    TopNState :=
  if !s.heap_full || (match s.heap.head? with
      | some r => decide (r.1 < new_min_count)
      | none => false) then
    match TopNState.lookup s.top_n item with
    | some _ =>
      { s with
        top_n := s.top_n.map fun e =>
          if e.1 = item then (item, new_min_count) else e,
        heap := List.orderedInsert hpLe (new_min_count, item)
          (s.heap.eraseP fun q => q.2 == item) }
    | none =>
      if s.heap_full then
        let r := heapPushPop s.heap (new_min_count, item)
        { s with
          top_n := (s.top_n ++ [(item, new_min_count)]).eraseP
            fun e => e.1 == r.2.2,
          heap := r.1 }
      else
        let h' := List.orderedInsert hpLe (new_min_count, item) s.heap
        { s with
          top_n := s.top_n ++ [(item, new_min_count)],
          heap := h',
          heap_full := if h'.length = s.n then true else s.heap_full }
  else s

/-- A sequence of `_update_top_n` calls, as produced by a sequence of
`insert` calls (each insert feeds the tracker one
`(item, new_min_count)` observation). -/
def TopNState.run (s : TopNState) (ops : List (ℕ × ℤ)) : TopNState :=
  ops.foldl (fun s p => s.update p.1 p.2) s

/-- The tracker invariant tying the heap and the dict together: the
heap is sorted (its head is the `heapq` root), dict keys are unique,
the heap entries are exactly the dict entries (as a multiset, with
count and item swapped), the heap holds at most `n` entries, and the
`heap_full` flag is up exactly at `n` entries (meaningful for
`n ≥ 1`). -/
def TopNInv (n : ℕ) (s : TopNState) : Prop :=
  s.n = n
  ∧ 1 ≤ n
  ∧ List.Sorted hpLe s.heap
  ∧ (s.top_n.map Prod.fst).Nodup
  ∧ (s.heap.map fun p => (p.2, p.1)).Perm s.top_n
  ∧ s.heap.length ≤ n
  ∧ (s.heap_full = true ↔ s.heap.length = n)

/-- helper: an element of a list with unique keys splits the list, and
its key appears on neither side. -/
theorem split_by_key {α β : Type} (key : α → β) [DecidableEq β]
    {l : List α} {a : α} (hnd : (l.map key).Nodup) (hmem : a ∈ l) :
    ∃ l1 l2, l = l1 ++ a :: l2 ∧ (∀ e ∈ l1, key e ≠ key a)
      ∧ (∀ e ∈ l2, key e ≠ key a) := by
  obtain ⟨l1, l2, rfl⟩ := List.append_of_mem hmem
  rw [List.map_append, List.map_cons] at hnd
  obtain ⟨hna, -⟩ := List.nodup_cons.mp (List.nodup_middle.mp hnd)
  refine ⟨l1, l2, rfl, ?_, ?_⟩
  · intro e he hkey
    exact hna (List.mem_append.mpr (Or.inl (hkey ▸ List.mem_map_of_mem key he)))
  · intro e he hkey
    exact hna (List.mem_append.mpr (Or.inr (hkey ▸ List.mem_map_of_mem key he)))

/-- helper: erasing by key from a split list removes the middle
element. -/
theorem eraseP_key {α : Type} (key : α → ℕ) {l1 l2 : List α} {a : α}
    (h1 : ∀ e ∈ l1, key e ≠ key a) :
    (l1 ++ a :: l2).eraseP (fun e => key e == key a) = l1 ++ l2 := by
  rw [List.eraseP_append_right _ (fun b hb => by simpa using h1 b hb),
    List.eraseP_cons_of_pos (by simp)]

/-- helper: appending a fresh element keeps a list duplicate-free. -/
theorem nodup_append_singleton {α : Type} {l : List α} {a : α}
    (hnd : l.Nodup) (ha : a ∉ l) : (l ++ [a]).Nodup :=
  ((List.perm_append_singleton a l).nodup_iff).mpr
    (List.nodup_cons.mpr ⟨ha, hnd⟩)

/-- helper: a successful dict lookup is a membership. -/
theorem lookup_some_mem {m : List (ℕ × ℤ)} {x : ℕ} {v : ℤ}
    (h : TopNState.lookup m x = some v) : (x, v) ∈ m := by
  unfold TopNState.lookup at h
  cases hf : m.find? (fun e => e.1 == x) with
  | none => rw [hf] at h; exact absurd h (by simp)
  | some e =>
    rw [hf] at h
    have hmem := List.mem_of_find?_eq_some hf
    have hkey := List.find?_some hf
    obtain ⟨e1, e2⟩ := e
    simp at h hkey
    rw [← hkey, ← h]
    exact hmem

/-- helper: a failed dict lookup means the key is fresh. -/
theorem lookup_none_keys {m : List (ℕ × ℤ)} {x : ℕ}
    (h : TopNState.lookup m x = none) : ∀ e ∈ m, e.1 ≠ x := by
  unfold TopNState.lookup at h
  cases hf : m.find? (fun e => e.1 == x) with
  | some e => rw [hf] at h; exact absurd h (by simp)
  | none =>
    intro e he
    have := List.find?_eq_none.mp hf e he
    simpa using this

/-- `_update_top_n` preserves the tracker invariant (for `n ≥ 1`). -/
theorem TopNInv.update {n : ℕ} {s : TopNState} (inv : TopNInv n s)
    (x : ℕ) (c : ℤ) : TopNInv n (s.update x c) := by
  obtain ⟨sn, sheap, sfull, stopn⟩ := s
  obtain ⟨hn, hn1, hsort, hnd, hperm, hlen, hfull⟩ := inv
  dsimp only at hn hsort hnd hperm hlen hfull
  subst hn
  unfold TopNState.update
  dsimp only
  cases hC : (!sfull || (match sheap.head? with
      | some r => decide (r.1 < c) | none => false)) with
  | false =>
    rw [if_neg (by simp)]
    exact ⟨rfl, hn1, hsort, hnd, hperm, hlen, hfull⟩
  | true =>
    rw [if_pos rfl]
    cases hlk : TopNState.lookup stopn x with
    | some oldc =>
      have hmemt : (x, oldc) ∈ stopn := lookup_some_mem hlk
      have hmemh : (oldc, x) ∈ sheap := by
        have h1 : (x, oldc) ∈ sheap.map (fun p => (p.2, p.1)) :=
          hperm.mem_iff.mpr hmemt
        obtain ⟨q, hq, heq⟩ := List.mem_map.mp h1
        obtain ⟨q1, q2⟩ := q
        simp only [Prod.mk.injEq] at heq
        obtain ⟨h2, h1'⟩ := heq
        subst h2
        subst h1'
        exact hq
      have hheapnd : (sheap.map fun q => q.2).Nodup := by
        have h1 := (hperm.map Prod.fst).nodup_iff.mpr hnd
        rw [List.map_map] at h1
        exact h1
      obtain ⟨h1, h2, hsheq, hh1, hh2⟩ :=
        split_by_key (fun q : ℤ × ℕ => q.2) hheapnd hmemh
      obtain ⟨l1, l2, hteq, hl1, hl2⟩ := split_by_key Prod.fst hnd hmemt
      have herase : (sheap.eraseP fun q => q.2 == x) = h1 ++ h2 := by
        rw [hsheq]
        exact eraseP_key (fun q : ℤ × ℕ => q.2) hh1
      have hmapt : (stopn.map fun e => if e.1 = x then (x, c) else e)
          = l1 ++ (x, c) :: l2 := by
        rw [hteq, List.map_append, List.map_cons]
        have hm1 : l1.map (fun e => if e.1 = x then (x, c) else e) = l1 := by
          rw [List.map_congr_left (fun e he => if_neg (hl1 e he))]
          exact List.map_id' l1
        have hm2 : l2.map (fun e => if e.1 = x then (x, c) else e) = l2 := by
          rw [List.map_congr_left (fun e he => if_neg (hl2 e he))]
          exact List.map_id' l2
        rw [hm1, hm2, if_pos rfl]
      have hlen2 : (List.orderedInsert hpLe (c, x)
          (sheap.eraseP fun q => q.2 == x)).length = sheap.length := by
        rw [List.orderedInsert_length, herase, hsheq]
        simp only [List.length_append, List.length_cons]
        omega
      have hpermmid : ((h1 ++ h2).map fun p => (p.2, p.1)).Perm (l1 ++ l2) := by
        have hp := hperm
        rw [hsheq, hteq, List.map_append, List.map_cons] at hp
        have hp1 := (List.perm_middle.symm.trans hp).trans List.perm_middle
        have hp2 := hp1.cons_inv
        rw [← List.map_append] at hp2
        exact hp2
      refine ⟨rfl, hn1, ?_, ?_, ?_, ?_, ?_⟩
      · exact List.Sorted.orderedInsert _ _
          (List.Pairwise.sublist (List.eraseP_sublist sheap) hsort)
      · have hkeys : ((stopn.map fun e => if e.1 = x then (x, c) else e).map
            Prod.fst) = stopn.map Prod.fst := by
          rw [hmapt, hteq]
          simp
        rw [hkeys]
        exact hnd
      · rw [herase, hmapt]
        have p1 := (List.perm_orderedInsert hpLe (c, x) (h1 ++ h2)).map
          (fun p : ℤ × ℕ => (p.2, p.1))
        refine p1.trans ?_
        rw [List.map_cons]
        exact (hpermmid.cons ((x, c))).trans List.perm_middle.symm
      · rw [hlen2]
        exact hlen
      · rw [hlen2]
        exact hfull
    | none =>
      have hfresh := lookup_none_keys hlk
      cases sfull with
      | true =>
        rw [if_pos rfl]
        have hlenn : sheap.length = sn := hfull.mp rfl
        have hne : sheap ≠ [] := by
          intro h
          rw [h] at hlenn
          simp at hlenn
          omega
        obtain ⟨q, t, rfl⟩ := List.exists_cons_of_ne_nil hne
        have hCq : q.1 < c := by
          simp only [Bool.not_true, Bool.false_or, List.head?] at hC
          exact of_decide_eq_true hC
        have hpp : heapPushPop (q :: t) (c, x)
            = (List.orderedInsert hpLe (c, x) t, q) := by
          show (if hpLt q (c, x) then (List.orderedInsert hpLe (c, x) t, q)
            else (q :: t, (c, x))) = _
          rw [if_pos (show hpLt q (c, x) from Or.inl hCq)]
        rw [hpp]
        dsimp only
        have hq_mem_top : (q.2, q.1) ∈ stopn :=
          hperm.mem_iff.mp (List.mem_map_of_mem _ (List.mem_cons_self q t))
        have hqx : q.2 ≠ x := fun h => hfresh _ hq_mem_top h
        obtain ⟨l1, l2, hteq, hl1, hl2⟩ := split_by_key Prod.fst hnd hq_mem_top
        have heraset : ((stopn ++ [(x, c)]).eraseP fun e => e.1 == q.2)
            = (l1 ++ l2) ++ [(x, c)] := by
          rw [hteq]
          simp only [List.append_assoc, List.cons_append]
          exact @eraseP_key (ℕ × ℤ) Prod.fst l1 (l2 ++ [(x, c)])
            (q.2, q.1) hl1
        have hpermt : (t.map fun p : ℤ × ℕ => (p.2, p.1)).Perm (l1 ++ l2) := by
          have hp := hperm
          rw [hteq, List.map_cons] at hp
          exact (hp.trans List.perm_middle).cons_inv
        have hmemtail : ∀ e ∈ l1 ++ l2, e ∈ stopn := by
          intro e he
          rw [hteq]
          rcases List.mem_append.mp he with h | h
          · exact List.mem_append.mpr (Or.inl h)
          · exact List.mem_append.mpr (Or.inr (List.mem_cons_of_mem _ h))
        refine ⟨rfl, hn1, ?_, ?_, ?_, ?_, ?_⟩
        · exact List.Sorted.orderedInsert _ _ hsort.of_cons
        · rw [heraset]
          have hkeq : ((l1 ++ l2) ++ [(x, c)]).map Prod.fst
              = (l1 ++ l2).map Prod.fst ++ [x] := by simp
          rw [hkeq]
          apply nodup_append_singleton
          · have hk := hnd
            rw [hteq, List.map_append, List.map_cons] at hk
            have := List.nodup_cons.mp (List.nodup_middle.mp hk)
            rw [← List.map_append] at this
            exact this.2
          · intro hx
            obtain ⟨e, he, hex⟩ := List.mem_map.mp hx
            exact hfresh e (hmemtail e he) hex
        · rw [heraset]
          have p1 := (List.perm_orderedInsert hpLe (c, x) t).map
            (fun p : ℤ × ℕ => (p.2, p.1))
          refine p1.trans ?_
          rw [List.map_cons]
          exact (hpermt.cons ((x, c))).trans
            (List.perm_append_singleton _ _).symm
        · rw [List.orderedInsert_length]
          simp only [List.length_cons] at hlenn
          omega
        · rw [List.orderedInsert_length]
          simp only [List.length_cons] at hlenn
          constructor
          · intro
            omega
          · intro
            rfl
      | false =>
        rw [if_neg (by simp)]
        have hlt : sheap.length < sn := by
          rcases Nat.lt_or_ge sheap.length sn with h | h
          · exact h
          · have heq : sheap.length = sn := le_antisymm hlen h
            have := hfull.mpr heq
            simp at this
        refine ⟨rfl, hn1, ?_, ?_, ?_, ?_, ?_⟩
        · exact List.Sorted.orderedInsert _ _ hsort
        · have hkeq : (stopn ++ [(x, c)]).map Prod.fst
              = stopn.map Prod.fst ++ [x] := by simp
          rw [hkeq]
          apply nodup_append_singleton hnd
          intro hx
          obtain ⟨e, he, hex⟩ := List.mem_map.mp hx
          exact hfresh e he hex
        · have p1 := (List.perm_orderedInsert hpLe (c, x) sheap).map
            (fun p : ℤ × ℕ => (p.2, p.1))
          refine p1.trans ?_
          rw [List.map_cons]
          exact (hperm.cons ((x, c))).trans
            (List.perm_append_singleton _ _).symm
        · rw [List.orderedInsert_length]
          omega
        · rw [List.orderedInsert_length]
          by_cases hh : sheap.length + 1 = sn
          · rw [if_pos hh]
            exact ⟨fun _ => hh, fun _ => rfl⟩
          · rw [if_neg hh]
            constructor
            · intro h
              simp at h
            · intro h
              exact absurd h hh

/-- The tracker invariant holds of the freshly initialized registry
(for `n ≥ 1`). -/
theorem TopNInv.init {n : ℕ} (hn : 1 ≤ n) :
    TopNInv n (TopNCountMinSketch.init_top_n n) :=
  ⟨rfl, hn, List.sorted_nil, List.nodup_nil, List.Perm.refl [],
    by simp [TopNCountMinSketch.init_top_n],
    ⟨fun h => Bool.noConfusion h, fun h => by
      simp [TopNCountMinSketch.init_top_n] at h
      omega⟩⟩

/-- The tracker invariant is preserved by any update sequence. -/
theorem TopNInv.run {n : ℕ} {s : TopNState} (inv : TopNInv n s)
    (ops : List (ℕ × ℤ)) : TopNInv n (s.run ops) := by
  induction ops generalizing s with
  | nil => exact inv
  | cons p rest ih => exact ih (inv.update p.1 p.2)

/-- C6 (amended to `n ≥ 1`): after any sequence of tracker updates the
top-N registry keeps `|top_n| = |heap| ≤ n`, and an item is a key of
the `top_n` map exactly when a heap pair carries it. -/
theorem topn_tracker_size_and_membership (n : ℕ) (hn : 1 ≤ n)
    (ops : List (ℕ × ℤ)) :
    ((TopNCountMinSketch.init_top_n n).run ops).top_n.length
        = ((TopNCountMinSketch.init_top_n n).run ops).heap.length
    ∧ ((TopNCountMinSketch.init_top_n n).run ops).heap.length ≤ n
    ∧ ∀ x, (∃ c, (x, c) ∈ ((TopNCountMinSketch.init_top_n n).run ops).top_n)
        ↔ ∃ c, (c, x) ∈ ((TopNCountMinSketch.init_top_n n).run ops).heap := by
  obtain ⟨-, -, -, -, hperm, hlen, -⟩ := (TopNInv.init hn).run ops
  refine ⟨by rw [← hperm.length_eq, List.length_map], hlen, ?_⟩
  intro x
  constructor
  · rintro ⟨c, hc⟩
    have hm := hperm.mem_iff.mpr hc
    obtain ⟨q, hq, heq⟩ := List.mem_map.mp hm
    obtain ⟨q1, q2⟩ := q
    simp only [Prod.mk.injEq] at heq
    exact ⟨q1, by rw [← heq.1]; exact hq⟩
  · rintro ⟨c, hc⟩
    exact ⟨c, hperm.mem_iff.mp (List.mem_map_of_mem _ hc)⟩

/-- C6 counterexample to the claim as stated: with `n = 0` the
`heap_full` flag can never rise (the heap length jumps from `0` to `1`
and never equals `0`), so a single insert already pushes the heap past
the bound `n`. -/
theorem topn_tracker_unbounded_at_n_zero :
    ¬ (((TopNCountMinSketch.init_top_n 0).run [(0, 1)]).heap.length
        ≤ ((TopNCountMinSketch.init_top_n 0).run [(0, 1)]).n) := by
  decide

/-- Witness for C6 at `n = 1` with two updates. -/
theorem topn_tracker_size_and_membership_witness :
    ((TopNCountMinSketch.init_top_n 1).run [(5, 2), (7, 3)]).top_n.length
        = ((TopNCountMinSketch.init_top_n 1).run [(5, 2), (7, 3)]).heap.length
    ∧ ((TopNCountMinSketch.init_top_n 1).run [(5, 2), (7, 3)]).heap.length ≤ 1
    ∧ ∀ x, (∃ c, (x, c)
          ∈ ((TopNCountMinSketch.init_top_n 1).run [(5, 2), (7, 3)]).top_n)
        ↔ ∃ c, (c, x)
          ∈ ((TopNCountMinSketch.init_top_n 1).run [(5, 2), (7, 3)]).heap :=
  topn_tracker_size_and_membership 1 (by decide) [(5, 2), (7, 3)]

/-- Python 2 tuple-unpacking of a dict KEY in
`for _, key in self.top_n`: iterating a dict yields its keys, and a
scalar (integer) key cannot be unpacked into a pair — `TypeError`. -/
def pyUnpackPair (k : ℕ) : Except String (ℕ × ℕ) :=
  .error "TypeError: cannot unpack non-sequence int"

/-- `list.sort(key=lambda pair: pair[1], reverse=True)`: descending
order on the queried value. -/
def valGe (a b : ℕ × ℤ) : Prop := b.2 ≤ a.2

instance valGe.decRel : DecidableRel valGe := fun a b => by
  unfold valGe
  exact inferInstance

/-- Embedding of `CountMeanMinSketch.most_common` for integer items:
`mean_values = [(key, self.get(key)) for _, key in self.top_n]` — the
loop iterates the `top_n` DICT (yielding keys) and unpacks each key
as a pair, which raises for scalar items before `self.get` (passed here
abstractly as `getq`) is ever called; the rest re-sorts descending and
truncates to `min(k, n)`. -/
def CountMeanMinSketch.most_common (top_n : List (ℕ × ℤ)) (getq : ℕ → ℤ)
    (k : Option ℕ) (n : ℕ) : Except String (List (ℕ × ℤ)) := do
  let keys := top_n.map Prod.fst
  let pairs ← keys.mapM pyUnpackPair
  let mean_values := pairs.map fun q => (q.2, getq q.2)
  let sorted := List.insertionSort valGe mean_values
  let kk := match k with
    | none => n
    | some kv => if n < kv then n else kv
  return sorted.take kk

/-- C8: on any state tracking at least one integer item (here the item
`5` with stored count `3`), `most_common` raises `TypeError` instead of
returning the re-ranked count-mean-min estimates, because
`for _, key in self.top_n` iterates the dict's keys and tuple-unpacks
them; with no tracked item the buggy loop body never runs and the
empty ranking is returned. -/
theorem count_mean_most_common_raises :
    CountMeanMinSketch.most_common [(5, 3)] (fun _ => 0) none 100
        = .error "TypeError: cannot unpack non-sequence int"
      ∧ CountMeanMinSketch.most_common [] (fun _ => 0) none 100 = .ok [] := by
  constructor
  · rfl
  · rfl
